import Mathlib

/-!
A verification development for the adaptive pattern-learning suggestion
engine of the smart-file-organizer repository
(`src/python/ai_learning_system.py`, class `AILearningSystem`).

The Python code is shallowly embedded: SQLite tables become Lean lists of
rows in rowid (insertion) order, Python floats become exact rationals
(`ℚ`), and the filename manipulation done through `pathlib.Path` and `re`
is reproduced character by character on `List Char` (ASCII model of
`str.lower` / `str.isdigit`).
-/

namespace AILearning

/-! ## Character and string utilities (Python semantics) -/

/-- The separator class of the regex `[_\-\s\.]+` used by
`extract_keywords`: underscore, hyphen, period and (ASCII) whitespace. -/
def isSep (c : Char) : Bool :=
  c = '_' || c = '-' || c = '.' || c = ' ' || c = '\t' || c = '\n' ||
  c = '\r' || c = '\x0b' || c = '\x0c'

/-- Lowercase a string character by character (model of `str.lower`). -/
def strLower (s : String) : String :=
  String.mk (s.toList.map Char.toLower)

/-- `charsPre n h` is true iff `n` is a prefix of `h`. -/
def charsPre : List Char → List Char → Bool
  | [], _ => true
  | _ :: _, [] => false
  | a :: as, b :: bs => a = b && charsPre as bs

/-- `charsIn n h` is true iff `n` occurs contiguously inside `h`
(model of Python's `n in h` substring test). -/
def charsIn (needle : List Char) : List Char → Bool
  | [] => needle.isEmpty
  | c :: t => charsPre needle (c :: t) || charsIn needle t

/-- Python `needle in hay` on strings. -/
def strContains (hay needle : String) : Bool :=
  charsIn needle.toList hay.toList

/-- Python `s.endswith(suf)`. -/
def strEndsWith (s suf : String) : Bool :=
  charsPre suf.toList.reverse s.toList.reverse

/-- Python `s.isdigit()` (ASCII model): nonempty and all digits. -/
def pyIsDigit (s : String) : Bool :=
  !s.isEmpty && s.toList.all Char.isDigit

/-! ## Path model (`pathlib.Path`, POSIX flavour)

`Path(filename).name` is the last path component; `"."` components and
empty components (from repeated or trailing slashes) are dropped by
`pathlib`'s normalization.  `suffix`/`stem` split the name at its last
dot, provided that dot is neither the first nor the last character. -/

/-- Split a character list on a separator character, keeping empty
chunks (like Python `s.split(sep)` for a single-character separator). -/
def splitOnChar (sep : Char) (cs : List Char) : List (List Char) :=
  cs.foldr
    (fun c acc =>
      if c = sep then [] :: acc
      else
        match acc with
        | t :: ts => (c :: t) :: ts
        | [] => [[c]])
    [[]]

/-- `Path(filename).name` as a character list. -/
def pathNameOf (filename : String) : List Char :=
  let comps := (splitOnChar '/' filename.toList).filter
    (fun comp => !comp.isEmpty && comp ≠ ['.'])
  comps.getLast?.getD []

/-- Index of the last `'.'` in a name, if any (Python `name.rfind('.')`). -/
def lastDotPos (cs : List Char) : Option Nat :=
  match cs.reverse.findIdx? (fun c => c = '.') with
  | some j => some (cs.length - 1 - j)
  | none => none

/-- `Path` `.suffix` of a name: `name[i:]` when the last dot sits at
position `0 < i < len - 1`, otherwise empty. -/
def suffixChars (name : List Char) : List Char :=
  match lastDotPos name with
  | some i => if 0 < i && i < name.length - 1 then name.drop i else []
  | none => []

/-- `Path` `.stem` of a name: `name[:i]` under the same condition,
otherwise the whole name. -/
def stemChars (name : List Char) : List Char :=
  match lastDotPos name with
  | some i => if 0 < i && i < name.length - 1 then name.take i else name
  | none => name

/-! ## Feature extractor -/

/-- `re.split(r'[_\-\s\.]+', ·)`: chunks between *maximal* separator
runs.  A separator character opens a new chunk only when it is the last
of its run (next character missing or not a separator); this reproduces
the `+` in the regex. -/
def reSplitRuns : List Char → List (List Char)
  | [] => [[]]
  | c :: cs =>
    let rest := reSplitRuns cs
    if isSep c then
      match cs with
      | c2 :: _ => if isSep c2 then rest else [] :: rest
      | [] => [] :: rest
    else
      match rest with
      | t :: ts => (c :: t) :: ts
      | [] => [[c]]

/-- The stop words rejected by `re.match(r'^(the|and|for|with|from)$', kw)`. -/
def stopWords : List String := ["the", "and", "for", "with", "from"]

/-- The keyword filter of `extract_keywords`: length strictly greater
than 2, not a pure digit string, not a stop word. -/
def meaningfulKw (kw : String) : Bool :=
  decide (2 < kw.length) && !pyIsDigit kw && !stopWords.contains kw

/-- `AILearningSystem.extract_keywords`: lowercase the stem of the path
name, split on separator runs, keep the meaningful tokens. -/
def extract_keywords (filename : String) : List String :=
  let name := (stemChars (pathNameOf filename)).map Char.toLower
  ((reSplitRuns name).map (fun t => String.mk t)).filter meaningfulKw

/-- `Path(filename).suffix.lower()` as used by the learner and scorer;
`""` when the name has no parseable extension. -/
def extensionFeature (filename : String) : String :=
  String.mk ((suffixChars (pathNameOf filename)).map Char.toLower)

/-- `TypeError` raised by `Path(None)`. -/
inductive PyError where
  | typeError
  deriving DecidableEq

/-- `extract_keywords` at the Python call boundary: a `None` argument
makes `Path(None)` raise `TypeError`; a string argument never fails. -/
def extract_keywords_opt : Option String → Except PyError (List String)
  | none => Except.error PyError.typeError
  | some filename => Except.ok (extract_keywords filename)

/-! ## Data model

SQLite tables become Lean lists of rows kept in rowid (= insertion)
order.  Floats become exact rationals.  `last_updated` /
`correction_date` timestamps are threaded in as opaque strings
(`datetime.now().isoformat()` in the Python). -/

/-- A row of the `learned_patterns` table.  Note the schema: the only
primary key is the autoincrement `id` (the rowid); there is **no**
unique constraint on `(pattern_type, pattern_value, target_category)`. -/
structure PatternRow where
  pattern_type : String
  pattern_value : String
  target_category : String
  confidence : ℚ
  usage_count : Nat
  last_updated : String
  deriving DecidableEq

/-- A row of the `user_corrections` table. -/
structure CorrectionRow where
  filename : String
  original_category : String
  corrected_category : String
  file_extension : String
  keywords : String
  correction_date : String
  user_feedback : Option String
  deriving DecidableEq

/-- The learning database contents: both tables in rowid order. -/
structure LearnDB where
  corrections : List CorrectionRow
  patterns : List PatternRow
  deriving DecidableEq

/-- Engine state: the database contents together with whether the
database file `.ai_learning.db` exists on disk (`get_ai_suggestion` and
`get_learning_insights` test `self.learning_db.exists()` before
opening it). -/
structure SysState where
  dbExists : Bool
  db : LearnDB
  deriving DecidableEq

/-! ## Learning updater -/

/-- The scalar subqueries
`(SELECT confidence FROM learned_patterns WHERE pattern_type=? AND
pattern_value=? AND target_category=?)` (and the same for
`usage_count`): without `ORDER BY`/`LIMIT` they return the first row of
the table scan, i.e. the *oldest* matching row. -/
def firstMatch (ps : List PatternRow) (pt pv tc : String) : Option PatternRow :=
  ps.find? (fun r =>
    r.pattern_type = pt && r.pattern_value = pv && r.target_category = tc)

/-- The `INSERT OR REPLACE INTO learned_patterns ...` statement of
`update_learning_patterns`.  Because the table's only uniqueness
constraint is the autoincrement rowid, `OR REPLACE` never fires and the
statement always *appends* a fresh row, whose confidence and
usage_count are `COALESCE(previous, 0.5) + 0.1` and
`COALESCE(previous, 0) + 1` read from the oldest matching row. -/
def insertPattern (ps : List PatternRow) (pt pv tc now : String) :
    List PatternRow :=
  let prev := firstMatch ps pt pv tc
  ps ++ [{ pattern_type := pt, pattern_value := pv, target_category := tc,
           confidence := (prev.map PatternRow.confidence).getD (1/2) + 1/10,
           usage_count := (prev.map PatternRow.usage_count).getD 0 + 1,
           last_updated := now }]

/-- `AILearningSystem.update_learning_patterns`: one insert for the
(nonempty) lowercased extension, then one insert per extracted keyword,
in order. -/
def update_learning_patterns (db : LearnDB) (filename category now : String) :
    LearnDB :=
  let ext := extensionFeature filename
  let ps1 := if ext ≠ "" then insertPattern db.patterns "extension" ext category now
             else db.patterns
  let ps2 := (extract_keywords filename).foldl
    (fun ps kw => insertPattern ps "keyword" kw category now) ps1
  { db with patterns := ps2 }

/-- Storage-failure raised by `sqlite3` when the database is
unavailable (spec name: `StorageError`). -/
inductive StorageError where
  | unavailable
  deriving DecidableEq

/-- Availability of storage at each of the two commit points of
`record_user_correction`: the method opens one connection, inserts the
correction event and commits, then `update_learning_patterns` opens a
*second* connection and commits the pattern inserts separately. -/
structure StorageEnv where
  logCommitOk : Bool
  patternCommitOk : Bool
  deriving DecidableEq

/-- The correction-event row built by `record_user_correction`. -/
def mkCorrectionRow (filename original corrected : String)
    (feedback : Option String) (now : String) : CorrectionRow :=
  { filename := filename, original_category := original,
    corrected_category := corrected,
    file_extension := extensionFeature filename,
    keywords := String.intercalate " " (extract_keywords filename),
    correction_date := now, user_feedback := feedback }

/-- `AILearningSystem.record_user_correction`, with explicit storage
availability.  The event-log insert commits on its own connection;
if that commit fails nothing is persisted.  The pattern inserts then
commit on a second connection; if that second commit fails, the
already-committed correction event remains.  The returned pair is the
persisted state and the error, if one was raised. -/
def record_user_correction (env : StorageEnv) (st : SysState)
    (filename original corrected : String) (feedback : Option String)
    (now : String) : SysState × Option StorageError :=
  if env.logCommitOk = false then (st, some StorageError.unavailable)
  else
    let row := mkCorrectionRow filename original corrected feedback now
    let st1 : SysState :=
      { st with db := { st.db with corrections := st.db.corrections ++ [row] } }
    if env.patternCommitOk = false then (st1, some StorageError.unavailable)
    else ({ st1 with db := update_learning_patterns st1.db filename corrected now },
          none)

/-! ## Suggestion scorer -/

/-- Python `min(x, 1.0)`-style minimum on rationals. -/
def ratMin (a b : ℚ) : ℚ := if a ≤ b then a else b

/-- `get_default_category`'s ordered `medical_patterns` dict. -/
def medicalPatterns : List (String × List String) :=
  [("medical/imaging", ["ct", "mri", "xray", "x-ray", "dicom", "scan", "imaging"]),
   ("medical/labs", ["lab", "blood", "cbc", "results", "pathology", "biopsy"]),
   ("medical/clinical_notes", ["clinical", "patient", "notes", "chart", "summary"]),
   ("medical/genomics", ["genetic", "genomic", "dna", "gene", "sequence"]),
   ("medical/medications", ["medication", "prescription", "drug", "pharmacy"]),
   ("medical/research", ["research", "study", "trial", "paper"])]

/-- `AILearningSystem.get_default_category`: the static fallback
classifier.  Substring checks run on the lowercased filename, except
the `endswith` check which the Python applies to the original
filename. -/
def get_default_category (filename : String) : String :=
  let fl := strLower filename
  match medicalPatterns.find? (fun p => p.2.any (fun kw => strContains fl kw)) with
  | some p => p.1
  | none =>
    if ["medical", "clinical", "patient", "doctor"].any (fun kw => strContains fl kw)
      then "medical"
    else if ["education", "study", "course", "lecture"].any (fun kw => strContains fl kw)
      then "education"
    else if [".py", ".js", ".html", ".css", ".json"].any (fun suf => strEndsWith filename suf)
      then "projects/code"
    else if strContains fl "screenshot" then "screenshots"
    else "downloads/misc"

/-- `ORDER BY confidence DESC, usage_count DESC` comparison: row `a` may
precede row `b`. -/
def rowLe (a b : PatternRow) : Bool :=
  decide (b.confidence < a.confidence) ||
    (decide (a.confidence = b.confidence) && decide (b.usage_count ≤ a.usage_count))

/-- Insert into a list sorted by `rowLe` (after existing equal rows). -/
def insertRow (r : PatternRow) : List PatternRow → List PatternRow
  | [] => [r]
  | x :: xs => if rowLe x r then x :: insertRow r xs else r :: x :: xs

/-- Sort rows by `ORDER BY confidence DESC, usage_count DESC`
(insertion sort; only the multiset of rows matters to the scores). -/
def sortRows (rs : List PatternRow) : List PatternRow :=
  rs.foldr insertRow []

/-- Rows returned by `SELECT ... WHERE pattern_type = 'extension' AND
pattern_value = ?`. -/
def extRows (ps : List PatternRow) (ext : String) : List PatternRow :=
  ps.filter (fun r => r.pattern_type = "extension" && r.pattern_value = ext)

/-- Rows returned by `SELECT ... WHERE pattern_type = 'keyword' AND
pattern_value = ?`. -/
def kwRows (ps : List PatternRow) (kw : String) : List PatternRow :=
  ps.filter (fun r => r.pattern_type = "keyword" && r.pattern_value = kw)

/-- Extension-row weight: `confidence * min(usage_count / 10.0, 1.0)`. -/
def extContribution (r : PatternRow) : ℚ :=
  r.confidence * ratMin ((r.usage_count : ℚ) / 10) 1

/-- Keyword-row weight:
`confidence * min(usage_count / 5.0, 1.0)` times the `0.8` discount
applied at accumulation time. -/
def kwContribution (r : PatternRow) : ℚ :=
  r.confidence * ratMin ((r.usage_count : ℚ) / 5) 1 * (8/10)

/-- `category_scores[category] += s` on the insertion-ordered
`defaultdict(float)`: update the existing entry, or append a new one. -/
def addScore (scores : List (String × ℚ)) (cat : String) (s : ℚ) :
    List (String × ℚ) :=
  if scores.any (fun p => p.1 = cat) then
    scores.map (fun p => if p.1 = cat then (p.1, p.2 + s) else p)
  else scores ++ [(cat, s)]

/-- Accumulate one SELECT's rows into the score dictionary. -/
def accumRows (contribution : PatternRow → ℚ) (scores : List (String × ℚ))
    (rows : List PatternRow) : List (String × ℚ) :=
  rows.foldl (fun sc r => addScore sc r.target_category (contribution r)) scores

/-- The `category_scores` dictionary built by `get_ai_suggestion`:
extension rows first (when the extension is nonempty), then the rows of
each extracted keyword in order, each SELECT's rows in
`ORDER BY confidence DESC, usage_count DESC` order. -/
def categoryScoresOf (db : LearnDB) (filename : String) : List (String × ℚ) :=
  (extract_keywords filename).foldl
    (fun sc kw => accumRows kwContribution sc (sortRows (kwRows db.patterns kw)))
    (if extensionFeature filename ≠ "" then
       accumRows extContribution [] (sortRows (extRows db.patterns (extensionFeature filename)))
     else [])

/-- `max(category_scores, key=category_scores.get)`: the first entry
with the maximal value, in dictionary insertion order. -/
def pickBest (p : String × ℚ) (ps : List (String × ℚ)) : String × ℚ :=
  ps.foldl (fun best q => if best.2 < q.2 then q else best) p

/-- `AILearningSystem.get_ai_suggestion`.  A missing database file
short-circuits to the default category with confidence `0.5`; an empty
score dictionary falls back to the default category with confidence
`0.3`; otherwise the best scored category is returned with its score
clamped at `1.0`. -/
def get_ai_suggestion (st : SysState) (filename : String) : String × ℚ :=
  if st.dbExists = false then (get_default_category filename, 1/2)
  else
    match categoryScoresOf st.db filename with
    | [] => (get_default_category filename, 3/10)
    | p :: ps =>
      let best := pickBest p ps
      (best.1, ratMin best.2 1)

/-- The per-category score as an order-independent sum: the claimed
fusion rule (sum of `extContribution` over matched extension records
plus sum of `kwContribution` over matched keyword records, once per
keyword occurrence). -/
def categoryScore (db : LearnDB) (filename cat : String) : ℚ :=
  (if extensionFeature filename ≠ "" then
     (((extRows db.patterns (extensionFeature filename)).filter
        (fun r => r.target_category = cat)).map extContribution).sum
   else 0)
  + ((extract_keywords filename).map (fun kw =>
      (((kwRows db.patterns kw).filter
        (fun r => r.target_category = cat)).map kwContribution).sum)).sum

/-! ## Insights reporter -/

/-- Result of `get_learning_insights`: either the
`{"message": "No learning data available yet"}` sentinel (returned when
the database file does not exist) or the aggregate dictionary with keys
`total_corrections`, `most_corrected`, `preferred_categories` and
`pattern_strength`. -/
inductive InsightsResult where
  | noData
  | insights (total_corrections : Nat)
      (most_corrected : List (String × Nat))
      (preferred_categories : List (String × Nat))
      (pattern_strength : List (String × Nat × ℚ))
  deriving DecidableEq

/-- Distinct values in first-occurrence order (`GROUP BY` groups; group
order and `ORDER BY`-tie order are unspecified by SQLite, the model
fixes scan order). -/
def distinctKeys (xs : List String) : List String :=
  xs.foldl (fun acc x => if x ∈ acc then acc else acc ++ [x]) []

/-- Stable insertion (descending by count) for `ORDER BY cnt DESC`. -/
def insertDesc (p : String × Nat) : List (String × Nat) → List (String × Nat)
  | [] => [p]
  | q :: qs => if p.2 ≤ q.2 then q :: insertDesc p qs else p :: q :: qs

/-- `SELECT k, COUNT(*) GROUP BY k ORDER BY COUNT(*) DESC LIMIT 5`. -/
def topCounts (xs : List String) : List (String × Nat) :=
  (((distinctKeys xs).map (fun k => (k, (xs.filter (fun x => x = k)).length))).foldr
      insertDesc []).take 5

/-- `SELECT pattern_type, COUNT(*), AVG(confidence) GROUP BY
pattern_type`. -/
def patternStrength (ps : List PatternRow) : List (String × Nat × ℚ) :=
  (distinctKeys (ps.map PatternRow.pattern_type)).map (fun t =>
    let rows := ps.filter (fun r => r.pattern_type = t)
    (t, rows.length, (rows.map PatternRow.confidence).sum / (rows.length : ℚ)))

/-- `AILearningSystem.get_learning_insights`: the sentinel exactly when
the database file is missing; otherwise read-only aggregation over the
two tables (an empty but existing database yields zero counts and empty
lists, not the sentinel). -/
def get_learning_insights (st : SysState) : InsightsResult :=
  if st.dbExists = false then InsightsResult.noData
  else
    InsightsResult.insights
      st.db.corrections.length
      (topCounts (st.db.corrections.map CorrectionRow.original_category))
      (topCounts (st.db.corrections.map CorrectionRow.corrected_category))
      (patternStrength st.db.patterns)

/-! ## Clarification generator -/

/-- One clarification question: prompt, selectable options, and the
`learning_context` tag. -/
structure Question where
  question : String
  options : List String
  learning_context : String
  deriving DecidableEq

/-- `AILearningSystem.ask_clarification_questions`: medical / project
specific questions first, then the unconditional access-frequency
question, truncated to at most two (`questions[:2]`). -/
def ask_clarification_questions (filename suggested_category : String) :
    List Question :=
  let fl := strLower filename
  let fext := extensionFeature filename
  let qs :=
    (if strContains suggested_category "medical" then
      (if ["report", "result", "summary"].any (fun t => strContains fl t) then
        [{ question := "Is \x27" ++ filename ++
             "\x27 a clinical document that should be easily accessible for patient care?",
           options := ["Yes - High priority medical document",
                       "No - Reference/research material", "Unsure"],
           learning_context := "document_priority" }]
       else [])
      ++
      (if fext = ".pdf" then
        [{ question := "What type of medical document is \x27" ++ filename ++ "\x27?",
           options := ["Lab/Test Results", "Clinical Notes", "Research Paper",
                       "Patient Education", "Insurance/Administrative"],
           learning_context := "medical_document_type" }]
       else [])
     else if strContains suggested_category "projects" then
      [{ question := "Is \x27" ++ filename ++
           "\x27 part of an active project or archived work?",
         options := ["Active project - current work", "Archived - completed project",
                     "Learning/tutorial material"],
         learning_context := "project_status" }]
     else [])
    ++
    [{ question := "How often do you expect to access \x27" ++ filename ++ "\x27?",
       options := ["Daily/Weekly", "Monthly", "Rarely - archival", "Never - can delete"],
       learning_context := "access_frequency" }]
  qs.take 2

/-! ## Derived notions used to state the claims -/

/-- Value of `category_scores[cat]` in the insertion-ordered
dictionary (`0` when absent). -/
def lookupScore (sc : List (String × ℚ)) (cat : String) : ℚ :=
  match sc.find? (fun p => p.1 = cat) with
  | some p => p.2
  | none => 0

/-- Whether a stored pattern row is matched by one of the features
extracted from `filename` (so that one of the scorer's SELECTs returns
it). -/
def matchesFile (filename : String) (r : PatternRow) : Bool :=
  (r.pattern_type = "extension" && r.pattern_value = extensionFeature filename
     && extensionFeature filename ≠ "")
  || (r.pattern_type = "keyword" && (extract_keywords filename).contains r.pattern_value)

/-! ## Concrete fixtures used by the example theorems -/

/-- A store holding one learned extension pattern and one learned
keyword pattern, both with confidence `0.6` and usage count `1`. -/
def dbTwoPatterns : LearnDB :=
  ⟨[], [⟨"extension", ".pdf", "medical", 3/5, 1, "t1"⟩,
        ⟨"keyword", "invoice", "personal/finances", 3/5, 1, "t1"⟩]⟩

/-- A store whose single learned pattern matches no feature of
`"scan.xyz"`. -/
def dbUnmatched : LearnDB :=
  ⟨[], [⟨"extension", ".txt", "notes", 3/5, 1, "t1"⟩]⟩

/-- A single recorded correction event. -/
def rowOneCorrection : CorrectionRow :=
  ⟨"scan.pdf", "downloads/misc", "medical", ".pdf", "scan", "t1", none⟩

/-! ## Spec-side feature extractor

The specification describes the keyword features as obtained by
"splitting the filename stem on separator characters (whitespace,
hyphen, underscore, period), discarding tokens of length ≤ 2,
discarding pure-numeric tokens, and discarding a fixed stop-word list",
and the extension feature as "the lowercase file extension (including
the leading separator), present only if the name has a parseable
extension".  The definitions below follow those words: splitting at
*each* separator character (rather than at maximal separator runs as
`re.split(r'[...]+')` does), and an `Option` for the extension. -/

/-- Split at every single separator character. -/
def splitSingleSeps : List Char → List (List Char)
  | [] => [[]]
  | c :: cs =>
    if isSep c then [] :: splitSingleSeps cs
    else
      match splitSingleSeps cs with
      | t :: ts => (c :: t) :: ts
      | [] => [[c]]

/-- Keyword features as described by the specification's words. -/
def spec_keywords (filename : String) : List String :=
  let stem := (stemChars (pathNameOf filename)).map Char.toLower
  ((splitSingleSeps stem).map (fun t => String.mk t)).filter meaningfulKw

/-- Extension feature as described by the specification's words:
present (with its leading separator, lowercased) only when the name has
a parseable extension. -/
def spec_extension (filename : String) : Option String :=
  let name := pathNameOf filename
  match lastDotPos name with
  | some i =>
    if 0 < i && i < name.length - 1 then
      some (String.mk ((name.drop i).map Char.toLower))
    else none
  | none => none

/-! ## Tokenization lemmas: run-splitting vs single-character splitting -/

theorem reSplitRuns_nil : reSplitRuns [] = [[]] := rfl

theorem splitSingleSeps_nil : splitSingleSeps [] = [[]] := rfl

theorem reSplitRuns_cons (c : Char) (cs : List Char) :
    reSplitRuns (c :: cs) =
      if isSep c then
        match cs with
        | c2 :: _ => if isSep c2 then reSplitRuns cs else [] :: reSplitRuns cs
        | [] => [] :: reSplitRuns cs
      else
        match reSplitRuns cs with
        | t :: ts => (c :: t) :: ts
        | [] => [[c]] := rfl

theorem splitSingleSeps_cons (c : Char) (cs : List Char) :
    splitSingleSeps (c :: cs) =
      if isSep c then [] :: splitSingleSeps cs
      else
        match splitSingleSeps cs with
        | t :: ts => (c :: t) :: ts
        | [] => [[c]] := rfl

/-- Both splitters agree on the first chunk, and their tails agree after
discarding empty chunks. -/
theorem split_heads (cs : List Char) :
    ∃ h t1 t2, reSplitRuns cs = h :: t1 ∧ splitSingleSeps cs = h :: t2 ∧
      t1.filter (fun t => !t.isEmpty) = t2.filter (fun t => !t.isEmpty) := by
  induction cs with
  | nil => exact ⟨[], [], [], rfl, rfl, rfl⟩
  | cons c cs ih =>
    obtain ⟨h, t1, t2, e1, e2, he⟩ := ih
    by_cases hc : isSep c
    · cases cs with
      | nil =>
        refine ⟨[], [[]], [[]], ?_, ?_, rfl⟩
        · rw [reSplitRuns_cons]; simp [hc, reSplitRuns_nil]
        · rw [splitSingleSeps_cons]; simp [hc, splitSingleSeps_nil]
      | cons c2 cs2 =>
        by_cases hc2 : isSep c2
        · have hsplit : splitSingleSeps (c2 :: cs2) = [] :: splitSingleSeps cs2 := by
            rw [splitSingleSeps_cons]; simp [hc2]
          have hpair := List.cons_eq_cons.mp (e2.symm.trans hsplit)
          refine ⟨[], t1, [] :: t2, ?_, ?_, ?_⟩
          · rw [reSplitRuns_cons]; simp only [hc, hc2, if_true]
            rw [e1, hpair.1]
          · rw [splitSingleSeps_cons]; simp only [hc, if_true]
            rw [e2, hpair.1]
          · simpa [List.filter_cons] using he
        · refine ⟨[], h :: t1, h :: t2, ?_, ?_, ?_⟩
          · rw [reSplitRuns_cons]; simp [hc, hc2, e1]
          · rw [splitSingleSeps_cons]; simp only [hc, if_true]
            rw [e2]
          · by_cases hh : h.isEmpty <;> simp [List.filter_cons, hh, he]
    · refine ⟨c :: h, t1, t2, ?_, ?_, he⟩
      · rw [reSplitRuns_cons, e1]; simp [hc]
      · rw [splitSingleSeps_cons, e2]; simp [hc]

/-- The two splitters produce the same nonempty chunks. -/
theorem reSplit_filter_eq (cs : List Char) :
    (reSplitRuns cs).filter (fun t => !t.isEmpty) =
      (splitSingleSeps cs).filter (fun t => !t.isEmpty) := by
  obtain ⟨h, t1, t2, e1, e2, he⟩ := split_heads cs
  rw [e1, e2]
  by_cases hh : h.isEmpty <;> simp [List.filter_cons, hh, he]

/-- A token that passes the keyword filter is in particular nonempty. -/
theorem meaningfulKw_ne_empty (t : List Char) (h : meaningfulKw (String.mk t) = true) :
    (!t.isEmpty) = true := by
  have hlen : 2 < t.length := by
    have := (Bool.and_eq_true _ _).mp ((Bool.and_eq_true _ _).mp h).1
    simpa using this.1
  cases t with
  | nil => simp at hlen
  | cons a as => simp

/-- Filtering by the keyword filter factors through dropping empties. -/
theorem filter_meaningful_through_ne (l : List (List Char)) :
    l.filter (fun t => meaningfulKw (String.mk t)) =
      (l.filter (fun t => !t.isEmpty)).filter (fun t => meaningfulKw (String.mk t)) := by
  rw [List.filter_filter]
  apply List.filter_congr
  intro t _
  cases hm : meaningfulKw (String.mk t) with
  | false => simp
  | true => simp [meaningfulKw_ne_empty t hm]

/-- The code-side and spec-side keyword extractors agree: empty chunks
produced at run boundaries never survive the length filter. -/
theorem extract_keywords_eq_single (f : String) :
    extract_keywords f = spec_keywords f := by
  unfold extract_keywords spec_keywords
  rw [List.filter_map, List.filter_map]
  simp only [Function.comp_def]
  congr 1
  rw [filter_meaningful_through_ne, reSplit_filter_eq, ← filter_meaningful_through_ne]

/-- The spec-side optional extension is the code-side string extension,
present exactly when that string is nonempty. -/
theorem spec_extension_eq (f : String) :
    spec_extension f =
      if extensionFeature f = "" then none else some (extensionFeature f) := by
  unfold spec_extension extensionFeature suffixChars
  cases hd : lastDotPos (pathNameOf f) with
  | none => simp [hd]
  | some i =>
    simp only [hd]
    by_cases hcond : (0 < i && i < (pathNameOf f).length - 1) = true
    · simp only [hcond, if_true]
      have hi : i < (pathNameOf f).length - 1 := by
        have := (Bool.and_eq_true _ _).mp hcond
        exact of_decide_eq_true this.2
      have hne : (pathNameOf f).drop i ≠ [] := by
        apply List.ne_nil_of_length_pos
        rw [List.length_drop]
        omega
      have hmk : String.mk (((pathNameOf f).drop i).map Char.toLower) ≠ "" := by
        intro hcontra
        apply hne
        have hdata : ((pathNameOf f).drop i).map Char.toLower = [] :=
          congrArg String.data hcontra
        simpa using hdata
      rw [if_neg hmk]
    · simp [hcond]

/-! ## Score-dictionary lemmas -/

theorem lookupScore_nil (cat : String) : lookupScore [] cat = 0 := rfl

/-- Keys are preserved by the update branch of `addScore`. -/
theorem keys_map_update (sc : List (String × ℚ)) (c : String) (s : ℚ) :
    (sc.map (fun p => if p.1 = c then (p.1, p.2 + s) else p)).map Prod.fst =
      sc.map Prod.fst := by
  induction sc with
  | nil => rfl
  | cons p sc ih =>
    by_cases hp : p.1 = c <;> simp [hp, ih]

theorem lookupScore_cons (p : String × ℚ) (sc : List (String × ℚ)) (cat : String) :
    lookupScore (p :: sc) cat = if p.1 = cat then p.2 else lookupScore sc cat := by
  by_cases h : p.1 = cat
  · simp [lookupScore, List.find?_cons_of_pos, h]
  · simp only [lookupScore, List.find?_cons_of_neg, h, if_false]
    rw [List.find?_cons_of_neg]
    simp [h]

/-- The update branch of `addScore` leaves other keys unchanged. -/
theorem lookupScore_map_update_ne (sc : List (String × ℚ)) (c : String) (s : ℚ)
    (cat : String) (h : cat ≠ c) :
    lookupScore (sc.map (fun p => if p.1 = c then (p.1, p.2 + s) else p)) cat =
      lookupScore sc cat := by
  induction sc with
  | nil => rfl
  | cons p sc ih =>
    have hfst : (if p.1 = c then (p.1, p.2 + s) else p).1 = p.1 := by
      by_cases hp : p.1 = c <;> simp [hp]
    rw [List.map_cons, lookupScore_cons, lookupScore_cons, hfst]
    by_cases hcat : p.1 = cat
    · have hp : ¬p.1 = c := fun hpc => h (hcat ▸ hpc)
      have hpc : ¬cat = c := fun hh => hp (hcat.trans hh)
      simp [hcat, hp, hpc]
    · simp [hcat, ih]

/-- The update branch of `addScore` adds `s` to the value of key `c`
when `c` is present. -/
theorem lookupScore_map_update_eq (sc : List (String × ℚ)) (c : String) (s : ℚ)
    (hmem : sc.any (fun p => p.1 = c) = true) :
    lookupScore (sc.map (fun p => if p.1 = c then (p.1, p.2 + s) else p)) c =
      lookupScore sc c + s := by
  induction sc with
  | nil => simp at hmem
  | cons p sc ih =>
    by_cases hp : p.1 = c
    · rw [List.map_cons, lookupScore_cons, lookupScore_cons]
      simp [hp]
    · have hmem' : sc.any (fun p => p.1 = c) = true := by
        rw [List.any_cons] at hmem
        simpa [hp] using hmem
      have hfst : (if p.1 = c then (p.1, p.2 + s) else p).1 = p.1 := by
        simp [hp]
      rw [List.map_cons, lookupScore_cons, lookupScore_cons, hfst]
      simp [hp, ih hmem']

/-- Appending a fresh key reads back `s` for that key, `0` change for
others. -/
theorem lookupScore_append_new (sc : List (String × ℚ)) (c : String) (s : ℚ)
    (cat : String) (hnone : sc.any (fun p => p.1 = c) = false) :
    lookupScore (sc ++ [(c, s)]) cat =
      lookupScore sc cat + (if cat = c then s else 0) := by
  induction sc with
  | nil =>
    simp only [List.nil_append, lookupScore_cons, lookupScore_nil]
    by_cases h : c = cat
    · rw [if_pos h, if_pos h.symm, zero_add]
    · rw [if_neg h, if_neg (fun hh => h hh.symm), add_zero]
  | cons p sc ih =>
    rw [List.any_cons] at hnone
    have hp : ¬p.1 = c := by
      intro hpc
      simp [hpc] at hnone
    have hrest : sc.any (fun p => p.1 = c) = false :=
      (Bool.or_eq_false_iff.mp hnone).2
    rw [List.cons_append, lookupScore_cons, lookupScore_cons]
    by_cases hcat : p.1 = cat
    · have : ¬cat = c := fun h => hp (hcat.symm ▸ h)
      simp [hcat, this]
    · simp [hcat, ih hrest]

/-- `addScore` leaves the value of every other key unchanged and adds
`s` to the value of key `c` (which reads `0` when absent). -/
theorem lookupScore_addScore (sc : List (String × ℚ)) (c : String) (s : ℚ)
    (cat : String) :
    lookupScore (addScore sc c s) cat =
      lookupScore sc cat + (if cat = c then s else 0) := by
  unfold addScore
  cases hany : sc.any (fun p => p.1 = c) with
  | true =>
    rw [if_pos rfl]
    by_cases hcat : cat = c
    · subst hcat
      simp [lookupScore_map_update_eq sc cat s hany]
    · simp [lookupScore_map_update_ne sc c s cat hcat, hcat]
  | false =>
    rw [if_neg (by simp [hany])]
    exact lookupScore_append_new sc c s cat hany

/-- Folding one SELECT's rows adds, per category, the sum of the
contributions of the rows targeting that category. -/
theorem lookupScore_accumRows (contribution : PatternRow → ℚ)
    (rows : List PatternRow) (sc : List (String × ℚ)) (cat : String) :
    lookupScore (accumRows contribution sc rows) cat =
      lookupScore sc cat +
        ((rows.filter (fun r => r.target_category = cat)).map contribution).sum := by
  induction rows generalizing sc with
  | nil => simp [accumRows]
  | cons r rows ih =>
    have hstep : accumRows contribution sc (r :: rows) =
        accumRows contribution (addScore sc r.target_category (contribution r)) rows := rfl
    rw [hstep, ih, lookupScore_addScore, List.filter_cons]
    by_cases hr : r.target_category = cat
    · rw [if_pos hr.symm, if_pos (by simp [hr]), List.map_cons, List.sum_cons]
      ring
    · rw [if_neg (fun h => hr h.symm), if_neg (by simp [hr]), add_zero]

/-- Folding the per-keyword SELECTs accumulates each keyword's summed
contribution. -/
theorem lookupScore_foldKws (rowsOf : String → List PatternRow) (kws : List String)
    (sc : List (String × ℚ)) (cat : String) :
    lookupScore
        (kws.foldl (fun sc kw => accumRows kwContribution sc (rowsOf kw)) sc) cat =
      lookupScore sc cat +
        (kws.map (fun kw =>
          (((rowsOf kw).filter (fun r => r.target_category = cat)).map
            kwContribution).sum)).sum := by
  induction kws generalizing sc with
  | nil => simp
  | cons kw kws ih =>
    rw [List.foldl_cons, ih, lookupScore_accumRows, List.map_cons, List.sum_cons]
    ring

theorem insertRow_perm (r : PatternRow) (l : List PatternRow) :
    (insertRow r l).Perm (r :: l) := by
  induction l with
  | nil => exact List.Perm.refl _
  | cons x xs ih =>
    unfold insertRow
    by_cases h : rowLe x r = true
    · rw [if_pos h]
      exact (ih.cons x).trans (List.Perm.swap r x xs)
    · rw [if_neg h]

theorem sortRows_perm (rs : List PatternRow) : (sortRows rs).Perm rs := by
  induction rs with
  | nil => exact List.Perm.refl _
  | cons r rs ih =>
    have hstep : sortRows (r :: rs) = insertRow r (sortRows rs) := rfl
    rw [hstep]
    exact (insertRow_perm r (sortRows rs)).trans (ih.cons r)

/-- Sorting the rows of a SELECT does not change any category's summed
contribution. -/
theorem sum_filter_sortRows (rs : List PatternRow) (q : PatternRow → Bool)
    (f : PatternRow → ℚ) :
    (((sortRows rs).filter q).map f).sum = ((rs.filter q).map f).sum :=
  List.Perm.sum_eq (List.Perm.map f (List.Perm.filter q (sortRows_perm rs)))

/-- The dictionary built by `get_ai_suggestion` reads back, for every
category, exactly the additive fusion score `categoryScore`. -/
theorem lookupScore_categoryScoresOf (db : LearnDB) (f cat : String) :
    lookupScore (categoryScoresOf db f) cat = categoryScore db f cat := by
  unfold categoryScoresOf categoryScore
  rw [lookupScore_foldKws (fun kw => sortRows (kwRows db.patterns kw))]
  simp only [sum_filter_sortRows]
  congr 1
  by_cases hext : extensionFeature f ≠ ""
  · rw [if_pos hext, if_pos hext, lookupScore_accumRows, lookupScore_nil,
      sum_filter_sortRows, zero_add]
  · rw [if_neg hext, if_neg hext, lookupScore_nil]

theorem pickBest_mem (p : String × ℚ) (ps : List (String × ℚ)) :
    pickBest p ps ∈ p :: ps := by
  induction ps generalizing p with
  | nil => exact List.mem_cons_self _ _
  | cons q ps ih =>
    have hstep : pickBest p (q :: ps) = pickBest (if p.2 < q.2 then q else p) ps := rfl
    rw [hstep]
    rcases List.mem_cons.mp (ih (if p.2 < q.2 then q else p)) with h | h
    · rw [h]
      by_cases hpq : p.2 < q.2
      · rw [if_pos hpq]; exact List.mem_cons_of_mem _ (List.mem_cons_self _ _)
      · rw [if_neg hpq]; exact List.mem_cons_self _ _
    · exact List.mem_cons_of_mem _ (List.mem_cons_of_mem _ h)

theorem pickBest_ge (p : String × ℚ) (ps : List (String × ℚ)) :
    ∀ q ∈ p :: ps, q.2 ≤ (pickBest p ps).2 := by
  induction ps generalizing p with
  | nil =>
    intro q hq
    rcases List.mem_cons.mp hq with h | h
    · exact le_of_eq (congrArg Prod.snd h)
    · cases h
  | cons r ps ih =>
    intro q hq
    have hstep : pickBest p (r :: ps) = pickBest (if p.2 < r.2 then r else p) ps := rfl
    rw [hstep]
    have hp : p.2 ≤ (if p.2 < r.2 then r else p).2 := by
      by_cases hpr : p.2 < r.2
      · rw [if_pos hpr]; exact le_of_lt hpr
      · rw [if_neg hpr]
    have hr : r.2 ≤ (if p.2 < r.2 then r else p).2 := by
      by_cases hpr : p.2 < r.2
      · rw [if_pos hpr]
      · rw [if_neg hpr]; exact le_of_not_lt hpr
    have hhead := ih (if p.2 < r.2 then r else p) _ (List.mem_cons_self _ _)
    rcases List.mem_cons.mp hq with h | h
    · exact (le_of_eq (congrArg Prod.snd h)).trans (hp.trans hhead)
    · rcases List.mem_cons.mp h with h2 | h2
      · exact (le_of_eq (congrArg Prod.snd h2)).trans (hr.trans hhead)
      · exact ih _ q (List.mem_cons_of_mem _ h2)

/-- `addScore` preserves distinctness of the dictionary keys. -/
theorem keys_addScore_nodup (sc : List (String × ℚ)) (c : String) (s : ℚ)
    (h : (sc.map Prod.fst).Nodup) :
    ((addScore sc c s).map Prod.fst).Nodup := by
  unfold addScore
  cases hany : sc.any (fun p => p.1 = c) with
  | true => rw [if_pos rfl, keys_map_update]; exact h
  | false =>
    rw [if_neg (by simp [hany])]
    rw [List.map_append, List.nodup_append]
    refine ⟨h, List.nodup_singleton _, ?_⟩
    intro a ha hb
    simp only [List.map_cons, List.map_nil, List.mem_singleton] at hb
    subst hb
    rcases List.mem_map.mp ha with ⟨p, hp, hpc⟩
    simp only [List.any_eq_false, decide_eq_true_eq] at hany
    exact hany p hp hpc

theorem keys_accumRows_nodup (contribution : PatternRow → ℚ)
    (rows : List PatternRow) (sc : List (String × ℚ))
    (h : (sc.map Prod.fst).Nodup) :
    ((accumRows contribution sc rows).map Prod.fst).Nodup := by
  induction rows generalizing sc with
  | nil => exact h
  | cons r rows ih =>
    exact ih (addScore sc r.target_category (contribution r))
      (keys_addScore_nodup _ _ _ h)

theorem keys_foldKws_nodup (rowsOf : String → List PatternRow) (kws : List String)
    (sc : List (String × ℚ)) (h : (sc.map Prod.fst).Nodup) :
    ((kws.foldl (fun sc kw => accumRows kwContribution sc (rowsOf kw)) sc).map
      Prod.fst).Nodup := by
  induction kws generalizing sc with
  | nil => exact h
  | cons kw kws ih => exact ih _ (keys_accumRows_nodup _ _ _ h)

theorem keys_categoryScoresOf_nodup (db : LearnDB) (f : String) :
    ((categoryScoresOf db f).map Prod.fst).Nodup := by
  unfold categoryScoresOf
  apply keys_foldKws_nodup
  by_cases hext : extensionFeature f ≠ ""
  · rw [if_pos hext]
    exact keys_accumRows_nodup _ _ [] List.nodup_nil
  · rw [if_neg hext]
    exact List.nodup_nil

/-- In a key-distinct dictionary every entry reads back its own value. -/
theorem lookupScore_of_mem (sc : List (String × ℚ)) (p : String × ℚ)
    (hnd : (sc.map Prod.fst).Nodup) (hp : p ∈ sc) :
    lookupScore sc p.1 = p.2 := by
  induction sc with
  | nil => cases hp
  | cons q sc ih =>
    rcases List.mem_cons.mp hp with h | h
    · rw [h, lookupScore_cons, if_pos rfl]
    · have hq : q.1 ≠ p.1 := by
        intro he
        have hmem : q.1 ∈ sc.map Prod.fst := he ▸ List.mem_map_of_mem Prod.fst h
        exact (List.nodup_cons.mp (by simpa using hnd)).1 hmem
      rw [lookupScore_cons, if_neg hq]
      exact ih (List.nodup_cons.mp (by simpa using hnd)).2 h

/-- A key present in the dictionary is realized by some entry. -/
theorem key_realized (sc : List (String × ℚ)) (cat : String)
    (h : cat ∈ sc.map Prod.fst) :
    ∃ p ∈ sc, p.1 = cat ∧ lookupScore sc cat = p.2 := by
  rcases List.mem_map.mp h with ⟨p0, hp0, hp0c⟩
  have hsome : (sc.find? (fun p => p.1 = cat)).isSome :=
    List.find?_isSome.mpr ⟨p0, hp0, decide_eq_true hp0c⟩
  obtain ⟨q, hq⟩ := Option.isSome_iff_exists.mp hsome
  have hpred := List.find?_some hq
  refine ⟨q, List.mem_of_find?_eq_some hq, by simpa using hpred, ?_⟩
  unfold lookupScore
  rw [hq]

/-! ## Nonnegativity and no-match lemmas -/

theorem ratMin_nonneg (a b : ℚ) (ha : 0 ≤ a) (hb : 0 ≤ b) : 0 ≤ ratMin a b := by
  unfold ratMin
  by_cases h : a ≤ b
  · rw [if_pos h]; exact ha
  · rw [if_neg h]; exact hb

theorem ratMin_le_right (a b : ℚ) : ratMin a b ≤ b := by
  unfold ratMin
  by_cases h : a ≤ b
  · rw [if_pos h]; exact h
  · rw [if_neg h]

theorem extContribution_nonneg (r : PatternRow) (h : 0 ≤ r.confidence) :
    0 ≤ extContribution r := by
  unfold extContribution
  exact mul_nonneg h (ratMin_nonneg _ _ (by positivity) zero_le_one)

theorem kwContribution_nonneg (r : PatternRow) (h : 0 ≤ r.confidence) :
    0 ≤ kwContribution r := by
  unfold kwContribution
  exact mul_nonneg
    (mul_nonneg h (ratMin_nonneg _ _ (by positivity) zero_le_one)) (by norm_num)

/-- With nonnegative stored confidences, every fused category score is
nonnegative. -/
theorem categoryScore_nonneg (db : LearnDB) (f cat : String)
    (hpos : ∀ r ∈ db.patterns, 0 ≤ r.confidence) :
    0 ≤ categoryScore db f cat := by
  unfold categoryScore
  apply add_nonneg
  · by_cases hext : extensionFeature f ≠ ""
    · rw [if_pos hext]
      apply List.sum_nonneg
      intro x hx
      rcases List.mem_map.mp hx with ⟨r, hr, rfl⟩
      exact extContribution_nonneg r
        (hpos r (List.mem_of_mem_filter (List.mem_of_mem_filter hr)))
    · rw [if_neg hext]
  · apply List.sum_nonneg
    intro x hx
    rcases List.mem_map.mp hx with ⟨kw, _, rfl⟩
    apply List.sum_nonneg
    intro y hy
    rcases List.mem_map.mp hy with ⟨r, hr, rfl⟩
    exact kwContribution_nonneg r
      (hpos r (List.mem_of_mem_filter (List.mem_of_mem_filter hr)))

/-- When no stored pattern is matched by any extracted feature, the
score dictionary stays empty. -/
theorem categoryScoresOf_eq_nil (db : LearnDB) (f : String)
    (h : ∀ r ∈ db.patterns, matchesFile f r = false) :
    categoryScoresOf db f = [] := by
  unfold categoryScoresOf
  have hbase : (if extensionFeature f ≠ "" then
      accumRows extContribution [] (sortRows (extRows db.patterns (extensionFeature f)))
      else []) = ([] : List (String × ℚ)) := by
    by_cases hext : extensionFeature f ≠ ""
    · rw [if_pos hext]
      have hrows : extRows db.patterns (extensionFeature f) = [] := by
        rw [extRows, List.filter_eq_nil_iff]
        intro r hr hpred
        have hfalse := h r hr
        rcases (Bool.and_eq_true _ _).mp hpred with ⟨h1, h2⟩
        rw [matchesFile] at hfalse
        simp [of_decide_eq_true h1, of_decide_eq_true h2, hext] at hfalse
      rw [hrows]
      rfl
    · rw [if_neg hext]
  rw [hbase]
  have hkw : ∀ kw ∈ extract_keywords f, kwRows db.patterns kw = [] := by
    intro kw hkw
    rw [kwRows, List.filter_eq_nil_iff]
    intro r hr hpred
    have hfalse := h r hr
    rcases (Bool.and_eq_true _ _).mp hpred with ⟨h1, h2⟩
    rw [matchesFile] at hfalse
    have hcontains : (extract_keywords f).contains r.pattern_value = true := by
      rw [of_decide_eq_true h2]
      exact List.elem_eq_true_of_mem hkw
    simp [of_decide_eq_true h1] at hfalse
    exact hfalse (by rw [of_decide_eq_true h2]; exact hkw)
  generalize extract_keywords f = kws at hkw
  induction kws with
  | nil => rfl
  | cons kw kws ih =>
    rw [List.foldl_cons, hkw kw (List.mem_cons_self _ _)]
    exact ih (fun k hk => hkw k (List.mem_cons_of_mem _ hk))

/-- An empty `learned_patterns` table yields an empty score
dictionary for every filename. -/
theorem categoryScoresOf_no_patterns (cs : List CorrectionRow) (f : String) :
    categoryScoresOf ⟨cs, []⟩ f = [] :=
  categoryScoresOf_eq_nil _ f (fun r hr => absurd hr (List.not_mem_nil r))

/-! ## Confidence invariant

Every row the learner ever writes has confidence at least `0.6`, so the
nonnegativity hypothesis used below holds in every reachable state. -/

theorem insertPattern_nonneg (ps : List PatternRow) (pt pv tc now : String)
    (h : ∀ r ∈ ps, 0 ≤ r.confidence) :
    ∀ r ∈ insertPattern ps pt pv tc now, 0 ≤ r.confidence := by
  intro r hr
  unfold insertPattern at hr
  rcases List.mem_append.mp hr with h1 | h1
  · exact h r h1
  · rw [List.mem_singleton] at h1
    rw [h1]
    cases hf : firstMatch ps pt pv tc with
    | none => simp [hf]; norm_num
    | some q =>
      have hq : q ∈ ps := by
        unfold firstMatch at hf
        exact List.mem_of_find?_eq_some hf
      have hqc := h q hq
      show (0 : ℚ) ≤ q.confidence + 1/10
      linarith

theorem update_learning_patterns_nonneg (db : LearnDB) (f cat now : String)
    (h : ∀ r ∈ db.patterns, 0 ≤ r.confidence) :
    ∀ r ∈ (update_learning_patterns db f cat now).patterns, 0 ≤ r.confidence := by
  have key : ∀ (kws : List String) (ps : List PatternRow),
      (∀ r ∈ ps, 0 ≤ r.confidence) →
      ∀ r ∈ kws.foldl (fun ps kw => insertPattern ps "keyword" kw cat now) ps,
        0 ≤ r.confidence := by
    intro kws
    induction kws with
    | nil => intro ps hps; exact hps
    | cons kw kws ih =>
      intro ps hps
      exact ih _ (insertPattern_nonneg _ _ _ _ _ hps)
  apply key
  by_cases hext : extensionFeature f ≠ ""
  · rw [if_pos hext]
    exact insertPattern_nonneg _ _ _ _ _ h
  · rw [if_neg hext]
    exact h

/-! ## Claim theorems -/

/-- C1: the claim (and the spec) require the Pattern Store to hold at
most one Pattern Record per `(pattern_type, pattern_value,
target_category)` key, reinforcement mutating that record in place so
that reinforcing `('extension', '.pdf', 'medical')` twice leaves a
single record with `usage_count = 2` and `confidence = 0.7`.  The
`learned_patterns` schema has no unique constraint on that key (its
only primary key is the autoincrement `id`), so `INSERT OR REPLACE`
never conflicts: after two reinforcements the store holds TWO rows for
the key, `(confidence 0.6, usage_count 1)` and `(confidence 0.7,
usage_count 2)`.  This theorem evaluates the embedded code at that
failing input. -/
theorem upsert_duplicates_key :
    (update_learning_patterns
        (update_learning_patterns ⟨[], []⟩ "x.pdf" "medical" "t1")
        "x.pdf" "medical" "t2").patterns.filter
      (fun r => r.pattern_type = "extension" && r.pattern_value = ".pdf"
        && r.target_category = "medical") =
    [⟨"extension", ".pdf", "medical", 3/5, 1, "t1"⟩,
     ⟨"extension", ".pdf", "medical", 7/10, 2, "t2"⟩] := by
  simp +decide [update_learning_patterns, insertPattern, firstMatch, extensionFeature,
    extract_keywords, stemChars, suffixChars, pathNameOf, lastDotPos, splitOnChar,
    reSplitRuns, meaningfulKw, pyIsDigit, stopWords, isSep]
  norm_num

/-- C6: the Feature Extractor produces exactly the spec-described
features: the keyword tokens of the lowercased stem split on separator
characters with short, numeric and stop-word tokens discarded, and the
lowercase extension (with leading separator) present exactly when the
name has a parseable extension. -/
theorem feature_extractor_matches_spec (f : String) :
    extract_keywords f = spec_keywords f ∧
    spec_extension f =
      (if extensionFeature f = "" then none else some (extensionFeature f)) :=
  ⟨extract_keywords_eq_single f, spec_extension_eq f⟩

/-- C7 counterexample: on a null (`None`) filename the extractor does
not return an empty feature set — `Path(None)` raises `TypeError`. -/
theorem extractor_none_raises :
    extract_keywords_opt none = Except.error PyError.typeError := rfl

/-- C7 amended: on the empty filename the extractor returns the empty
feature set without raising and `get_ai_suggestion` (with the database
file present) recovers with the lowest-confidence fallback
`('downloads/misc', 0.3)`; a null filename instead raises `TypeError`
out of `Path(None)`. -/
theorem extractor_empty_recovery (st : SysState) (hdb : st.dbExists = true) :
    extract_keywords "" = [] ∧ extensionFeature "" = "" ∧
    get_ai_suggestion st "" = ("downloads/misc", 3/10) ∧
    extract_keywords_opt none = Except.error PyError.typeError := by
  refine ⟨by decide, by decide, ?_, rfl⟩
  have hscores : categoryScoresOf st.db "" = [] := by
    apply categoryScoresOf_eq_nil
    intro r hr
    rw [matchesFile]
    have he : extensionFeature "" = "" := by decide
    have hk : extract_keywords "" = [] := by decide
    rw [he, hk]
    simp
  unfold get_ai_suggestion
  rw [if_neg (by simp [hdb]), hscores]
  show (get_default_category "", (3 : ℚ)/10) = ("downloads/misc", 3/10)
  rw [show get_default_category "" = "downloads/misc" from by decide]

/-- C7 witness: the amended statement instantiated at a concrete state
with an existing (empty) database. -/
theorem extractor_empty_recovery_witness :
    extract_keywords "" = [] ∧ extensionFeature "" = "" ∧
    get_ai_suggestion ⟨true, ⟨[], []⟩⟩ "" = ("downloads/misc", 3/10) ∧
    extract_keywords_opt none = Except.error PyError.typeError :=
  extractor_empty_recovery ⟨true, ⟨[], []⟩⟩ rfl

/-- C9: for every filename and suggested category the clarification
generator returns between one and two questions: the general
access-frequency question is appended unconditionally before the list
is truncated to two entries. -/
theorem clarification_question_count (filename suggested_category : String) :
    1 ≤ (ask_clarification_questions filename suggested_category).length ∧
    (ask_clarification_questions filename suggested_category).length ≤ 2 := by
  have key : ∀ (pre : List Question) (g : Question),
      1 ≤ ((pre ++ [g]).take 2).length ∧ ((pre ++ [g]).take 2).length ≤ 2 := by
    intro pre g
    rw [List.length_take, List.length_append]
    simp only [List.length_singleton]
    omega
  exact key _ _

/-- C10: when the database file does not exist at suggestion time,
`get_ai_suggestion` returns the static default category with confidence
exactly `0.5` — unlike the `0.3` fallback used when the database exists
but holds no matching pattern (here: exists and is empty). -/
theorem missing_db_default_confidence (st : SysState) (f : String)
    (hdb : st.dbExists = false) :
    get_ai_suggestion st f = (get_default_category f, 1/2) ∧
    get_ai_suggestion ⟨true, ⟨st.db.corrections, []⟩⟩ f =
      (get_default_category f, 3/10) := by
  constructor
  · unfold get_ai_suggestion
    rw [if_pos hdb]
  · unfold get_ai_suggestion
    rw [if_neg (by simp), categoryScoresOf_no_patterns]

/-- C10 witness: the theorem instantiated at a deleted-database state
and the filename `"x.med"`. -/
theorem missing_db_default_confidence_witness :
    get_ai_suggestion ⟨false, ⟨[], []⟩⟩ "x.med" =
      (get_default_category "x.med", 1/2) ∧
    get_ai_suggestion ⟨true, ⟨[], []⟩⟩ "x.med" =
      (get_default_category "x.med", 3/10) :=
  missing_db_default_confidence ⟨false, ⟨[], []⟩⟩ "x.med" rfl

/-- C4: when no extracted feature matches any stored pattern (with the
database file present, as the constructor guarantees), the suggestion
is the static fallback category with confidence exactly `0.3`, for
every filename — whether or not a fallback keyword rule fires. -/
theorem suggestion_fallback_confidence (st : SysState) (f : String)
    (hdb : st.dbExists = true)
    (hm : ∀ r ∈ st.db.patterns, matchesFile f r = false) :
    get_ai_suggestion st f = (get_default_category f, 3/10) := by
  unfold get_ai_suggestion
  rw [if_neg (by simp [hdb]), categoryScoresOf_eq_nil st.db f hm]

/-- C4 witness: a store whose only pattern matches nothing of
`"scan.xyz"`; the fallback keyword rule for `'scan'` fires and the
confidence is still `0.3`. -/
theorem suggestion_fallback_confidence_witness :
    (∀ r ∈ (⟨true, dbUnmatched⟩ : SysState).db.patterns,
      matchesFile "scan.xyz" r = false) ∧
    get_ai_suggestion ⟨true, dbUnmatched⟩ "scan.xyz" =
      (get_default_category "scan.xyz", 3/10) ∧
    get_default_category "scan.xyz" = "medical/imaging" := by
  have hm : ∀ r ∈ (⟨true, dbUnmatched⟩ : SysState).db.patterns,
      matchesFile "scan.xyz" r = false := by
    intro r hr
    rcases List.mem_cons.mp hr with h | h
    · rw [h]; decide
    · cases h
  exact ⟨hm, suggestion_fallback_confidence ⟨true, dbUnmatched⟩ "scan.xyz" rfl hm,
    by decide⟩

/-- C5: for every state whose stored confidences are nonnegative (an
invariant of all states the learner can produce) and every filename,
the suggestion is a total function of the embedded state and its
confidence lies in `[0, 1]`. -/
theorem suggestion_confidence_bounds (st : SysState) (f : String)
    (hpos : ∀ r ∈ st.db.patterns, 0 ≤ r.confidence) :
    0 ≤ (get_ai_suggestion st f).2 ∧ (get_ai_suggestion st f).2 ≤ 1 := by
  unfold get_ai_suggestion
  by_cases hdb : st.dbExists = false
  · rw [if_pos hdb]
    norm_num
  · rw [if_neg hdb]
    cases hsc : categoryScoresOf st.db f with
    | nil =>
      constructor
      · norm_num
      · norm_num
    | cons p ps =>
      dsimp only
      have hnd := keys_categoryScoresOf_nodup st.db f
      rw [hsc] at hnd
      have hmem := pickBest_mem p ps
      have hval := lookupScore_of_mem _ _ hnd hmem
      have hlk := lookupScore_categoryScoresOf st.db f (pickBest p ps).1
      rw [hsc] at hlk
      have hbest : 0 ≤ (pickBest p ps).2 := by
        rw [← hval, hlk]
        exact categoryScore_nonneg st.db f _ hpos
      exact ⟨ratMin_nonneg _ _ hbest zero_le_one, ratMin_le_right _ _⟩

/-- C5 witness: the bounds instantiated at a populated store and the
filename `"invoice.pdf"`. -/
theorem suggestion_confidence_bounds_witness :
    0 ≤ (get_ai_suggestion ⟨true, dbTwoPatterns⟩ "invoice.pdf").2 ∧
    (get_ai_suggestion ⟨true, dbTwoPatterns⟩ "invoice.pdf").2 ≤ 1 := by
  apply suggestion_confidence_bounds
  intro r hr
  rcases List.mem_cons.mp hr with h | h
  · rw [h]; norm_num [dbTwoPatterns]
  · rcases List.mem_cons.mp h with h2 | h2
    · rw [h2]; norm_num [dbTwoPatterns]
    · cases h2

/-- C8 counterexample: with the database file present but the store
empty (the state the constructor itself creates), `get_learning_insights`
does NOT return the "no data yet" sentinel — it returns the zero-count
aggregate. -/
theorem insights_empty_store_not_sentinel :
    get_learning_insights ⟨true, ⟨[], []⟩⟩ ≠ InsightsResult.noData := by
  decide

/-- C8 amended: `get_learning_insights` returns the "no data yet"
sentinel exactly when the database *file* is missing; whenever the file
exists — even with an entirely empty store — it returns the aggregate
of total corrections, most-corrected categories, preferred categories
and per-type pattern strength computed read-only from the two tables. -/
theorem insights_sentinel_iff_missing_db (st : SysState) :
    (get_learning_insights st = InsightsResult.noData ↔ st.dbExists = false) ∧
    (st.dbExists = true →
      get_learning_insights st =
        InsightsResult.insights st.db.corrections.length
          (topCounts (st.db.corrections.map CorrectionRow.original_category))
          (topCounts (st.db.corrections.map CorrectionRow.corrected_category))
          (patternStrength st.db.patterns)) := by
  unfold get_learning_insights
  cases hdb : st.dbExists
  · exact ⟨by simp, fun h => by cases h⟩
  · exact ⟨by simp, fun _ => by simp⟩

/-- C8 witness: the amended statement instantiated at a state holding
one correction event and no patterns. -/
theorem insights_sentinel_iff_missing_db_witness :
    get_learning_insights ⟨true, ⟨[rowOneCorrection], []⟩⟩ =
      InsightsResult.insights 1 [("downloads/misc", 1)] [("medical", 1)] [] := by
  have h := (insights_sentinel_iff_missing_db ⟨true, ⟨[rowOneCorrection], []⟩⟩).2 rfl
  rw [h]
  decide

/-- C3 counterexample: `record_user_correction` commits the event-log
insert on its own connection before `update_learning_patterns` opens a
second one, so when the pattern commit fails after a successful log
commit, the operation raises a storage error while the correction event
REMAINS logged — the claimed all-or-nothing transaction does not hold. -/
theorem record_correction_partial_commit :
    ((record_user_correction ⟨true, false⟩ ⟨true, ⟨[], []⟩⟩
        "report.pdf" "downloads/misc" "medical" none "t1").2 =
      some StorageError.unavailable) ∧
    (record_user_correction ⟨true, false⟩ ⟨true, ⟨[], []⟩⟩
        "report.pdf" "downloads/misc" "medical" none "t1").1.db.corrections ≠ [] := by
  constructor
  · decide
  · decide

/-- C3 amended: the event-log append and the pattern upserts are two
separate transactions.  A failing log commit fails the whole operation
with `StorageError` and leaves the state untouched (so no pattern
mutation ever precedes the event append), but a failing pattern commit
after a successful append leaves the event logged with the patterns
unchanged; only when both commits succeed are the patterns updated. -/
theorem record_correction_two_transactions (env : StorageEnv) (st : SysState)
    (filename original corrected : String) (feedback : Option String)
    (now : String) :
    (env.logCommitOk = false →
      record_user_correction env st filename original corrected feedback now =
        (st, some StorageError.unavailable)) ∧
    (env.logCommitOk = true → env.patternCommitOk = false →
      (record_user_correction env st filename original corrected feedback now).2 =
        some StorageError.unavailable ∧
      (record_user_correction env st filename original corrected
          feedback now).1.db.patterns = st.db.patterns ∧
      (record_user_correction env st filename original corrected
          feedback now).1.db.corrections =
        st.db.corrections ++ [mkCorrectionRow filename original corrected feedback now]) ∧
    (env.logCommitOk = true → env.patternCommitOk = true →
      (record_user_correction env st filename original corrected feedback now).2 =
        none ∧
      (record_user_correction env st filename original corrected
          feedback now).1.db =
        update_learning_patterns
          { st.db with corrections :=
              st.db.corrections ++
                [mkCorrectionRow filename original corrected feedback now] }
          filename corrected now) := by
  refine ⟨?_, ?_, ?_⟩
  · intro hlog
    unfold record_user_correction
    rw [if_pos hlog]
  · intro hlog hpat
    unfold record_user_correction
    rw [if_neg (by simp [hlog]), if_pos hpat]
    exact ⟨rfl, rfl, rfl⟩
  · intro hlog hpat
    unfold record_user_correction
    rw [if_neg (by simp [hlog]), if_neg (by simp [hpat])]
    exact ⟨rfl, rfl⟩

/-- C3 witness: the amended statement instantiated at a state where the
log commit fails, leaving the state untouched. -/
theorem record_correction_two_transactions_witness :
    record_user_correction ⟨false, true⟩ ⟨true, ⟨[], []⟩⟩
        "report.pdf" "downloads/misc" "medical" none "t1" =
      (⟨true, ⟨[], []⟩⟩, some StorageError.unavailable) :=
  (record_correction_two_transactions ⟨false, true⟩ ⟨true, ⟨[], []⟩⟩
    "report.pdf" "downloads/misc" "medical" none "t1").1 rfl

/-- C2: whenever some feature matches a stored pattern, the suggestion
is the first dictionary category whose accumulated additive score —
`confidence × min(usage_count/10, 1)` summed over matched extension
records plus `confidence × min(usage_count/5, 1) × 0.8` summed over
matched keyword records — is maximal, and the reported confidence is
that score clamped at `1.0`. -/
theorem suggestion_maximizes_additive_score (st : SysState) (f : String)
    (hdb : st.dbExists = true) (hne : categoryScoresOf st.db f ≠ []) :
    (get_ai_suggestion st f).1 ∈ (categoryScoresOf st.db f).map Prod.fst ∧
    (get_ai_suggestion st f).2 =
      ratMin (categoryScore st.db f (get_ai_suggestion st f).1) 1 ∧
    ∀ cat ∈ (categoryScoresOf st.db f).map Prod.fst,
      categoryScore st.db f cat ≤
        categoryScore st.db f (get_ai_suggestion st f).1 := by
  unfold get_ai_suggestion
  rw [if_neg (by simp [hdb])]
  cases hsc : categoryScoresOf st.db f with
  | nil => exact absurd hsc hne
  | cons p ps =>
    dsimp only
    have hnd := keys_categoryScoresOf_nodup st.db f
    rw [hsc] at hnd
    have hmem := pickBest_mem p ps
    have hval := lookupScore_of_mem _ _ hnd hmem
    have hlk : ∀ cat, lookupScore (p :: ps) cat = categoryScore st.db f cat := by
      intro cat
      rw [← hsc]
      exact lookupScore_categoryScoresOf st.db f cat
    refine ⟨List.mem_map_of_mem Prod.fst hmem, ?_, ?_⟩
    · rw [← hlk (pickBest p ps).1, hval]
    · intro cat hcat
      rw [← hlk cat, ← hlk (pickBest p ps).1, hval]
      rcases key_realized _ cat hcat with ⟨q, hqmem, _, hqv⟩
      rw [hqv]
      exact pickBest_ge p ps q hqmem

/-- C2 witness: in a store holding one extension record and one keyword
record (both confidence `0.6`, usage `1`), the filename
`"invoice.pdf"` matches both; the extension match contributes
`0.06 = 3/50` to `medical` and the keyword match contributes
`0.096 = 12/125` to `personal/finances`, which wins with confidence
`12/125`. -/
theorem suggestion_maximizes_additive_score_witness :
    (categoryScoresOf dbTwoPatterns "invoice.pdf" ≠ []) ∧
    ((get_ai_suggestion ⟨true, dbTwoPatterns⟩ "invoice.pdf").2 =
      ratMin (categoryScore dbTwoPatterns "invoice.pdf"
        (get_ai_suggestion ⟨true, dbTwoPatterns⟩ "invoice.pdf").1) 1) ∧
    get_ai_suggestion ⟨true, dbTwoPatterns⟩ "invoice.pdf" =
      ("personal/finances", 12/125) ∧
    categoryScore dbTwoPatterns "invoice.pdf" "medical" = 3/50 ∧
    categoryScore dbTwoPatterns "invoice.pdf" "personal/finances" = 12/125 := by
  have hne : categoryScoresOf dbTwoPatterns "invoice.pdf" ≠ [] := by
    simp +decide [categoryScoresOf, dbTwoPatterns, extRows, kwRows, sortRows,
      insertRow, rowLe, accumRows, addScore, extContribution, kwContribution,
      ratMin, extensionFeature, extract_keywords, stemChars, suffixChars,
      pathNameOf, lastDotPos, splitOnChar, reSplitRuns, meaningfulKw, pyIsDigit,
      stopWords, isSep]
  refine ⟨hne,
    (suggestion_maximizes_additive_score ⟨true, dbTwoPatterns⟩ "invoice.pdf" rfl
      hne).2.1, ?_, ?_, ?_⟩
  · simp +decide [get_ai_suggestion, dbTwoPatterns, categoryScoresOf, extRows,
      kwRows, sortRows, insertRow, rowLe, accumRows, addScore, extContribution,
      kwContribution, ratMin, pickBest, extensionFeature, extract_keywords,
      stemChars, suffixChars, pathNameOf, lastDotPos, splitOnChar, reSplitRuns,
      meaningfulKw, pyIsDigit, stopWords, isSep]
    norm_num [ratMin]
  · simp +decide [categoryScore, dbTwoPatterns, extRows, kwRows, extContribution,
      kwContribution, ratMin, extensionFeature, extract_keywords, stemChars,
      suffixChars, pathNameOf, lastDotPos, splitOnChar, reSplitRuns, meaningfulKw,
      pyIsDigit, stopWords, isSep]
    norm_num [ratMin]
  · simp +decide [categoryScore, dbTwoPatterns, extRows, kwRows, extContribution,
      kwContribution, ratMin, extensionFeature, extract_keywords, stemChars,
      suffixChars, pathNameOf, lastDotPos, splitOnChar, reSplitRuns, meaningfulKw,
      pyIsDigit, stopWords, isSep]
    norm_num [ratMin]

end AILearning
